import Mathlib

/-!
# Verification of the KMP and Z-algorithm string-matching routines

This file gives a shallow embedding of the four algorithmic routines of
the repository (`computeLPS` and `KMPSearch` from `knuth_morris_pratt.cc`,
`computeZArray` and `zAlgorithmSearch` from the Z-algorithm translation
unit) and proves their specifications.

Strings are embedded as `List Char`, `vector<int>` values as `List ℕ`
(every stored value in the source is a non-negative match length), and the
C++ `int` window indices `L`, `R` of the Z-algorithm as `ℤ` (the source
initialises `R = -1`).  Every subscript access of the source is performed
through a bounds-checked read or write returning `Option`, so an
out-of-bounds access surfaces as `none`.  Each `while`/`for` loop becomes
a structurally recursive function on an explicit fuel argument; exhausting
the fuel also surfaces as `none`, and we prove that the concrete fuel each
top-level wrapper supplies is always sufficient.
-/

/-- Bounds-checked read of a character list at a C++ `int` index: a
negative or too-large index is an out-of-bounds access, modelled as
`none`. -/
def getZC (l : List Char) (k : ℤ) : Option Char :=
  if k < 0 then none else l[k.toNat]?

/-- Bounds-checked read of an integer array at a C++ `int` index. -/
def getZN (l : List ℕ) (k : ℤ) : Option ℕ :=
  if k < 0 then none else l[k.toNat]?

/-- Bounds-checked write `l[i] = v` of the C++ source: writing outside the
vector is an out-of-bounds access, modelled as `none`. -/
def setN (l : List ℕ) (i : ℕ) (v : ℕ) : Option (List ℕ) :=
  if i < l.length then some (l.set i v) else none

/-- The main loop of `computeLPS` (`knuth_morris_pratt.cc`, lines 27-40):
state `(i, j, lps)` with scan index `i`, candidate border length `j` and
the partially filled LPS array.  One fuel unit is spent per iteration of
the C++ `while` loop. -/
def lpsLoop (p : List Char) : ℕ → ℕ → ℕ → List ℕ → Option (List ℕ)
  | 0, _, _, _ => none
  | fuel + 1, i, j, lps =>
    if i < p.length then do
      let ci ← p[i]?
      let cj ← p[j]?
      if ci = cj then
        let lps1 ← setN lps i (j + 1)
        lpsLoop p fuel (i + 1) (j + 1) lps1
      else if j ≠ 0 then do
        let v ← lps[j - 1]?
        lpsLoop p fuel i v lps
      else do
        let lps1 ← setN lps i 0
        lpsLoop p fuel (i + 1) j lps1
    else pure lps

/-- Fuel sufficient for `lpsLoop`: the measure
`(m - i) * (m + 1) + j` strictly decreases at each iteration. -/
def lpsFuel (p : List Char) : ℕ :=
  p.length * p.length + p.length + 1

/-- `computeLPS` (`knuth_morris_pratt.cc`, lines 22-42): LPS array of a
pattern, starting from `i = 1`, `j = 0` and an all-zero array. -/
def computeLPS (p : List Char) : Option (List ℕ) :=
  lpsLoop p (lpsFuel p) 1 0 (List.replicate p.length 0)

/-- The main loop of `KMPSearch` (`knuth_morris_pratt.cc`, lines 68-84).
Each iteration first tries to extend the current match (recording the new
match length), then either folds back after a complete match (`j == m`)
or handles a mismatch at the (possibly advanced) text position. -/
def kmpLoop (t p : List Char) (lp : List ℕ) : ℕ → ℕ → ℕ → List ℕ → Option (List ℕ)
  | 0, _, _, _ => none
  | fuel + 1, i, j, rec =>
    if i < t.length then do
      let pj ← p[j]?
      let ti ← t[i]?
      let s ←
        if pj = ti then do
          let rec1 ← setN rec i (j + 1)
          pure (i + 1, j + 1, rec1)
        else pure (i, j, rec)
      match s with
      | (i1, j1, rec1) =>
        if j1 = p.length then do
          let v ← lp[j1 - 1]?
          kmpLoop t p lp fuel i1 v rec1
        else if i1 < t.length then do
          let pj1 ← p[j1]?
          let ti1 ← t[i1]?
          if pj1 ≠ ti1 then
            if j1 ≠ 0 then do
              let v ← lp[j1 - 1]?
              kmpLoop t p lp fuel i1 v rec1
            else do
              let rec2 ← setN rec1 i1 0
              kmpLoop t p lp fuel (i1 + 1) 0 rec2
          else kmpLoop t p lp fuel i1 j1 rec1
        else kmpLoop t p lp fuel i1 j1 rec1
    else pure rec

/-- Fuel sufficient for `kmpLoop`: measure `(n - i) * (m + 1) + j`. -/
def kmpFuel (t p : List Char) : ℕ :=
  (t.length + 1) * (p.length + 1) + 1

/-- `KMPSearch` with an explicit fuel for the main loop. -/
def KMPSearchFuel (fuel : ℕ) (t p : List Char) : Option (List ℕ) :=
  if p.length = 0 then pure []
  else do
    let lp ← computeLPS p
    kmpLoop t p lp fuel 0 0 (List.replicate t.length 0)

/-- `KMPSearch` (`knuth_morris_pratt.cc`, lines 58-86): per-position match
state of a text scanned against a non-empty pattern; the empty pattern
returns the empty array (lines 61-63). -/
def KMPSearch (t p : List Char) : Option (List ℕ) :=
  KMPSearchFuel (kmpFuel t p) t p

/-- The window-extension `while` loop of `computeZArray` (part_000,
lines 34-36 and 48-50): extend `R` while `s[R - L] == s[R]` holds and
`R < n`. -/
def zExtend (s : List Char) (L : ℤ) : ℕ → ℤ → Option ℤ
  | 0, _ => none
  | fuel + 1, R =>
    if R < (s.length : ℤ) then do
      let a ← getZC s (R - L)
      let b ← getZC s R
      if a = b then zExtend s L fuel (R + 1) else pure R
    else pure R

/-- The `for` loop of `computeZArray` (part_000, lines 31-55), with the
Z-box `[L, R]` kept as C++ `int` values and `ef` the fuel handed to each
inner extension loop. -/
def zLoop (s : List Char) (ef : ℕ) : ℕ → ℕ → ℤ → ℤ → List ℕ → Option (List ℕ)
  | 0, _, _, _, _ => none
  | fuel + 1, i, L, R, Z =>
    if i < s.length then
      if (i : ℤ) > R then do
        let R1 ← zExtend s i ef i
        let Z1 ← setN Z i (R1 - i).toNat
        zLoop s ef fuel (i + 1) i (R1 - 1) Z1
      else do
        let zk ← getZN Z ((i : ℤ) - L)
        if (zk : ℤ) < R - i + 1 then do
          let Z1 ← setN Z i zk
          zLoop s ef fuel (i + 1) L R Z1
        else do
          let R1 ← zExtend s i ef R
          let Z1 ← setN Z i (R1 - i).toNat
          zLoop s ef fuel (i + 1) i (R1 - 1) Z1
    else pure Z

/-- `computeZArray` with explicit fuels for the outer loop and the
extension loops. -/
def computeZArrayFuel (fuel ef : ℕ) (s : List Char) : Option (List ℕ) :=
  if s.length = 0 then pure []
  else do
    let Z0 ← setN (List.replicate s.length 0) 0 s.length
    zLoop s ef fuel 1 0 0 Z0

/-- `computeZArray` (part_000, lines 21-57): the Z-array of a string, with
`Z[0] = n` and the two-case Z-box scan from `i = 1`. -/
def computeZArray (s : List Char) : Option (List ℕ) :=
  computeZArrayFuel (s.length + 1) (s.length + 1) s

/-- The window-extension `while` loop of `zAlgorithmSearch` (part_000,
lines 90-92 and 104-106): extend while `R < m`, `R - L < n` and
`text[R] == pattern[R - L]` (in the source `n` is the pattern length and
`m` the text length). -/
def zExtendT (t p : List Char) (L : ℤ) : ℕ → ℤ → Option ℤ
  | 0, _ => none
  | fuel + 1, R =>
    if R < (t.length : ℤ) ∧ R - L < (p.length : ℤ) then do
      let a ← getZC t R
      let b ← getZC p (R - L)
      if a = b then zExtendT t p L fuel (R + 1) else pure R
    else pure R

/-- The `for` loop of `zAlgorithmSearch` (part_000, lines 85-112): the
Z-box is tracked over the text while characters are compared against the
pattern, and the mirrored lookup reads the pattern's own Z-array `zp`. -/
def zLoopT (t p : List Char) (zp : List ℕ) (ef : ℕ) :
    ℕ → ℕ → ℤ → ℤ → List ℕ → Option (List ℕ)
  | 0, _, _, _, _ => none
  | fuel + 1, i, L, R, Z =>
    if i < t.length then do
      let Z0 ← setN Z i 0
      if (i : ℤ) > R then do
        let R1 ← zExtendT t p i ef i
        let Z1 ← setN Z0 i (R1 - i).toNat
        zLoopT t p zp ef fuel (i + 1) i (R1 - 1) Z1
      else do
        let zk ← getZN zp ((i : ℤ) - L)
        if (zk : ℤ) < R - i + 1 then do
          let Z1 ← setN Z0 i zk
          zLoopT t p zp ef fuel (i + 1) L R Z1
        else do
          let R1 ← zExtendT t p i ef R
          let Z1 ← setN Z0 i (R1 - i).toNat
          zLoopT t p zp ef fuel (i + 1) i (R1 - 1) Z1
    else pure Z

/-- `zAlgorithmSearch` with explicit fuels. -/
def zAlgorithmSearchFuel (fuel ef : ℕ) (t p : List Char) : Option (List ℕ) :=
  if p.length = 0 then pure (List.replicate t.length 0)
  else do
    let zp ← computeZArray p
    zLoopT t p zp ef fuel 0 0 (-1) (List.replicate t.length 0)

/-- `zAlgorithmSearch` (part_000, lines 73-115): per-offset longest
pattern-prefix match lengths over a text; an empty pattern returns the
all-zero array of the text's length (lines 76-79). -/
def zAlgorithmSearch (t p : List Char) : Option (List ℕ) :=
  zAlgorithmSearchFuel (t.length + 1) (t.length + 1) t p

/-- Spec name from the specification document for `computeLPS`. -/
def prefixFunction (p : List Char) : Option (List ℕ) := computeLPS p

/-- Spec name from the specification document for `KMPSearch`. -/
def kmpMatch (t p : List Char) : Option (List ℕ) := KMPSearch t p

/-- Spec name from the specification document for `computeZArray`. -/
def zFunction (s : List Char) : Option (List ℕ) := computeZArray s

/-- Spec name from the specification document for `zAlgorithmSearch`. -/
def zMatch (t p : List Char) : Option (List ℕ) := zAlgorithmSearch t p

/-! ## Specification predicates -/

/-- `r` is the length of the longest proper prefix of `l` that is also a
suffix of `l` (the greatest proper border of `l`). -/
def IsGreatestBorder (l : List Char) (r : ℕ) : Prop :=
  r < l.length ∧ l.take r <:+ l ∧ ∀ k, k < l.length → l.take k <:+ l → k ≤ r

/-- `r` is the length of the longest prefix of `p` that is a suffix of `u`,
among the prefix lengths `0 ≤ k ≤ p.length`. -/
def IsMaxPrefSuffix (p u : List Char) (r : ℕ) : Prop :=
  r ≤ p.length ∧ p.take r <:+ u ∧ ∀ k, k ≤ p.length → p.take k <:+ u → k ≤ r

/-! ## Toolkit: prefixes that are suffixes (borders) -/

theorem take_take_eq {p : List Char} {k n : ℕ} (h : k ≤ n) :
    (p.take n).take k = p.take k := by
  rw [List.take_take, Nat.min_eq_left h]

theorem length_take_eq {p : List Char} {n : ℕ} (h : n ≤ p.length) :
    (p.take n).length = n := by
  simp [List.length_take, Nat.min_eq_left h]

theorem suffix_append_single {s u : List Char} (c : Char) (h : s <:+ u) :
    s ++ [c] <:+ u ++ [c] := by
  obtain ⟨v, rfl⟩ := h
  exact ⟨v, by simp⟩

theorem take_succ_getElem {l : List Char} {n : ℕ} {c : Char} (h : l[n]? = some c) :
    l.take (n + 1) = l.take n ++ [c] := by
  rw [List.take_succ, h]
  rfl

/-- Extending a matched border by one matching character. -/
theorem take_suffix_extend {p u : List Char} {j : ℕ} {c : Char}
    (hs : p.take j <:+ u) (hc : p[j]? = some c) :
    p.take (j + 1) <:+ u ++ [c] := by
  rw [take_succ_getElem hc]
  exact suffix_append_single c hs

/-- Peeling the last character off a non-trivial border of `u ++ [c]`. -/
theorem take_suffix_peel {p u : List Char} {k : ℕ} {c : Char}
    (hk : 1 ≤ k) (hkp : k ≤ p.length) (h : p.take k <:+ u ++ [c]) :
    p.take (k - 1) <:+ u ∧ p[k - 1]? = some c := by
  obtain ⟨k1, rfl⟩ : ∃ k1, k = k1 + 1 := ⟨k - 1, by omega⟩
  simp only [Nat.add_sub_cancel]
  have hk1 : k1 < p.length := by omega
  have hgs : p[k1]? = some (p[k1]) := List.getElem?_eq_getElem hk1
  rw [take_succ_getElem hgs] at h
  obtain ⟨v, hv⟩ := h
  rw [← List.append_assoc] at hv
  have hinj := List.append_inj' hv (by simp)
  have hc : p[k1] = c := by
    have := hinj.2
    simpa using this
  exact ⟨⟨v, hinj.1⟩, by rw [hgs, hc]⟩

/-- Of two suffixes of the same list, the shorter is a suffix of the
longer. -/
theorem suffix_nest {a b u : List Char} (ha : a <:+ u) (hb : b <:+ u)
    (hl : a.length ≤ b.length) : a <:+ b :=
  List.suffix_of_suffix_length_le ha hb hl

/-- After a successful comparison, `j + 1` dominates every extendable
prefix-suffix of `u ++ [c]` of length at most `cap`. -/
theorem maxext_of_match {p u : List Char} {c : Char} {j cap : ℕ}
    (hcap : cap ≤ p.length)
    (hS2 : ∀ k, k < cap → p.take k <:+ u → p[k]? = some c → k ≤ j) :
    ∀ k, k ≤ cap → p.take k <:+ u ++ [c] → k ≤ j + 1 := by
  intro k hk hsuf
  rcases Nat.eq_zero_or_pos k with hk0 | hk1
  · omega
  · obtain ⟨hpeel, hchar⟩ := take_suffix_peel hk1 (le_trans hk hcap) hsuf
    have := hS2 (k - 1) (by omega) hpeel hchar
    omega

/-- After a mismatch with `j = 0`, no nonzero prefix-suffix of `u ++ [c]`
of length at most `cap` exists. -/
theorem maxext_of_reset {p u : List Char} {c p0 : Char} {cap : ℕ}
    (hcap : cap ≤ p.length)
    (hS2 : ∀ k, k < cap → p.take k <:+ u → p[k]? = some c → k ≤ 0)
    (h0 : p[0]? = some p0) (hne : p0 ≠ c) :
    ∀ k, k ≤ cap → p.take k <:+ u ++ [c] → k ≤ 0 := by
  intro k hk hsuf
  rcases Nat.eq_zero_or_pos k with hk0 | hk1
  · omega
  · obtain ⟨_, hchar⟩ := take_suffix_peel hk1 (le_trans hk hcap) hsuf
    have hk1' := hS2 (k - 1) (by omega) (take_suffix_peel hk1 (le_trans hk hcap) hsuf).1 hchar
    have hk' : k = 1 := by omega
    subst hk'
    simp only [Nat.sub_self] at hchar
    rw [h0] at hchar
    exact absurd (Option.some.inj hchar) hne

/-- Falling back from `j` to the greatest proper border of `p.take j`
preserves both halves of the loop invariant. -/
theorem fallback_invariant {p u : List Char} {c pj : Char} {j j2 cap : ℕ}
    (hjp : j ≤ p.length) (hcap : cap ≤ p.length)
    (hgb : IsGreatestBorder (p.take j) j2)
    (hS1 : p.take j <:+ u)
    (hS2 : ∀ k, k < cap → p.take k <:+ u → p[k]? = some c → k ≤ j)
    (hj : p[j]? = some pj) (hne : pj ≠ c) :
    p.take j2 <:+ u ∧
      ∀ k, k < cap → p.take k <:+ u → p[k]? = some c → k ≤ j2 := by
  have hlen : (p.take j).length = j := length_take_eq hjp
  obtain ⟨hj2lt, hj2suf, hj2max⟩ := hgb
  rw [hlen] at hj2lt
  rw [take_take_eq (le_of_lt hj2lt)] at hj2suf
  constructor
  · exact hj2suf.trans hS1
  · intro k hk hsuf hchar
    have hkj : k ≤ j := hS2 k hk hsuf hchar
    have hkne : k ≠ j := by
      intro hkeq
      subst hkeq
      rw [hj] at hchar
      exact hne (Option.some.inj hchar)
    have hklt : k < j := lt_of_le_of_ne hkj hkne
    have hnest : p.take k <:+ p.take j := by
      apply suffix_nest hsuf hS1
      rw [length_take_eq (by omega : k ≤ p.length), hlen]
      omega
    have hfin := hj2max k (by rw [hlen]; omega)
      (by rw [take_take_eq (by omega : k ≤ j)]; exact hnest)
    omega

/-! ## Small helpers for the checked array operations -/

theorem setN_eq_some {l : List ℕ} {i v : ℕ} (h : i < l.length) :
    setN l i v = some (l.set i v) := by
  simp [setN, h]

theorem getD_eq_of_lt {l : List ℕ} {q : ℕ} (h : q < l.length) :
    l.getD q 0 = l[q] := by
  simp [List.getD_eq_getElem?_getD, List.getElem?_eq_getElem h]

theorem getD_set_self {l : List ℕ} {i v : ℕ} (h : i < l.length) :
    (l.set i v).getD i 0 = v := by
  simp [List.getD_eq_getElem?_getD, List.getElem?_set_self h]

theorem getD_set_ne {l : List ℕ} {i q v : ℕ} (h : i ≠ q) :
    (l.set i v).getD q 0 = l.getD q 0 := by
  simp [List.getD_eq_getElem?_getD, List.getElem?_set_ne h]

/-! ## Soundness of `lpsLoop` -/

/-- The loop invariant of `computeLPS`: before each test of `i < m`,
`j` is a border of `p.take i` dominating every border of `p.take i`
extendable by the character `p[i]`, and all recorded entries are greatest
proper borders. -/
def LpsInv (p : List Char) (i j : ℕ) (lps : List ℕ) : Prop :=
  j < i ∧ i ≤ p.length ∧ lps.length = p.length ∧
  p.take j <:+ p.take i ∧
  (∀ k c, k < i → p.take k <:+ p.take i → p[k]? = some c → p[i]? = some c → k ≤ j) ∧
  ∀ q, q < i → IsGreatestBorder (p.take (q + 1)) (lps.getD q 0)

theorem lpsLoop_sound (p : List Char) : ∀ (fuel i j : ℕ) (lps : List ℕ),
    LpsInv p i j lps →
    (p.length - i) * (p.length + 1) + j < fuel →
    ∃ r, lpsLoop p fuel i j lps = some r ∧ r.length = p.length ∧
      ∀ q, q < p.length → IsGreatestBorder (p.take (q + 1)) (r.getD q 0) := by
  intro fuel
  induction fuel with
  | zero => intro i j lps _ hf; omega
  | succ fuel ih =>
    intro i j lps hinv hf
    obtain ⟨hji, him, hlen, hS1, hS2, hspec⟩ := hinv
    by_cases hi : i < p.length
    · have hci : p[i]? = some (p[i]) := List.getElem?_eq_getElem hi
      have hjm : j < p.length := by omega
      have hcj : p[j]? = some (p[j]) := List.getElem?_eq_getElem hjm
      have htsucc : p.take (i + 1) = p.take i ++ [p[i]] := take_succ_getElem hci
      have hlen1 : (p.take (i + 1)).length = i + 1 := length_take_eq (by omega)
      rw [lpsLoop, if_pos hi, hci, hcj]
      simp only [Option.bind_eq_bind, Option.some_bind]
      by_cases hcc : p[i] = p[j]
      · -- matched: j++, lps[i] = j, i++
        rw [if_pos hcc, setN_eq_some (by omega : i < lps.length)]
        simp only [Option.bind_eq_bind, Option.some_bind]
        have hcj' : p[j]? = some (p[i]) := by rw [hcj, hcc]
        have hborder : p.take (j + 1) <:+ p.take (i + 1) := by
          rw [htsucc]
          exact take_suffix_extend hS1 hcj'
        have hmax : ∀ k, k ≤ i → p.take k <:+ p.take i ++ [p[i]] → k ≤ j + 1 :=
          maxext_of_match (by omega)
            (fun k hk hs hc => hS2 k (p[i]) hk hs hc hci)
        have hrec : IsGreatestBorder (p.take (i + 1)) (j + 1) := by
          refine ⟨by omega, ?_, ?_⟩
          · rw [take_take_eq (by omega : j + 1 ≤ i + 1)]
            exact hborder
          · intro k hk hsuf
            rw [hlen1] at hk
            rw [take_take_eq (by omega : k ≤ i + 1), htsucc] at hsuf
            exact hmax k (by omega) hsuf
        have hinv' : LpsInv p (i + 1) (j + 1) (lps.set i (j + 1)) := by
          refine ⟨by omega, by omega, by simp [hlen], hborder, ?_, ?_⟩
          · intro k c hk hsuf _ _
            rw [htsucc] at hsuf
            exact hmax k (by omega) hsuf
          · intro q hq
            rcases Nat.lt_or_ge q i with hqi | hqi
            · rw [getD_set_ne (by omega)]
              exact hspec q hqi
            · have hqe : q = i := by omega
              subst hqe
              rw [getD_set_self (by omega : q < lps.length)]
              exact hrec
        refine ih (i + 1) (j + 1) _ hinv' ?_
        have hsub : p.length - i = (p.length - (i + 1)) + 1 := by omega
        have hmul : (p.length - i) * (p.length + 1)
            = (p.length - (i + 1)) * (p.length + 1) + (p.length + 1) := by
          rw [hsub, Nat.succ_mul]
        omega
      · rw [if_neg hcc]
        by_cases hj0 : j = 0
        · -- mismatch with j = 0: record 0 and advance
          rw [if_neg (by simp [hj0]), setN_eq_some (by omega : i < lps.length)]
          simp only [Option.bind_eq_bind, Option.some_bind]
          subst hj0
          have hmax0 : ∀ k, k ≤ i → p.take k <:+ p.take i ++ [p[i]] → k ≤ 0 :=
            maxext_of_reset (by omega)
              (fun k hk hs hc => hS2 k (p[i]) hk hs hc hci) hcj
              (fun hpc => hcc hpc.symm)
          have hrec : IsGreatestBorder (p.take (i + 1)) 0 := by
            refine ⟨by omega, by simp, ?_⟩
            intro k hk hsuf
            rw [hlen1] at hk
            rw [take_take_eq (by omega : k ≤ i + 1), htsucc] at hsuf
            exact hmax0 k (by omega) hsuf
          have hinv' : LpsInv p (i + 1) 0 (lps.set i 0) := by
            refine ⟨by omega, by omega, by simp [hlen], by simp, ?_, ?_⟩
            · intro k c hk hsuf _ _
              rw [htsucc] at hsuf
              exact hmax0 k (by omega) hsuf
            · intro q hq
              rcases Nat.lt_or_ge q i with hqi | hqi
              · rw [getD_set_ne (by omega)]
                exact hspec q hqi
              · have hqe : q = i := by omega
                subst hqe
                rw [getD_set_self (by omega : q < lps.length)]
                exact hrec
          refine ih (i + 1) 0 _ hinv' ?_
          have hsub : p.length - i = (p.length - (i + 1)) + 1 := by omega
          have hmul : (p.length - i) * (p.length + 1)
              = (p.length - (i + 1)) * (p.length + 1) + (p.length + 1) := by
            rw [hsub, Nat.succ_mul]
          omega
        · -- mismatch with j ≠ 0: fall back through the prefix array
          rw [if_pos hj0]
          have hj1 : j - 1 < lps.length := by omega
          have hv : lps[j - 1]? = some (lps[j - 1]) := List.getElem?_eq_getElem hj1
          rw [hv]
          simp only [Option.bind_eq_bind, Option.some_bind]
          have hq := hspec (j - 1) (by omega)
          rw [(by omega : j - 1 + 1 = j), getD_eq_of_lt hj1] at hq
          have hfb := fallback_invariant (by omega : j ≤ p.length) (by omega : i ≤ p.length)
            hq hS1 (fun k hk hs hc => hS2 k (p[i]) hk hs hc hci) hcj
            (fun hpc => hcc hpc.symm)
          have hj2 : lps[j - 1] < j := by
            have := hq.1
            rw [length_take_eq (by omega : j ≤ p.length)] at this
            exact this
          have hinv' : LpsInv p i (lps[j - 1]) lps := by
            refine ⟨by omega, by omega, hlen, hfb.1, ?_, hspec⟩
            intro k c hk hsuf hck hcik
            have hc : c = p[i] := by
              rw [hci] at hcik
              exact (Option.some.inj hcik).symm
            subst hc
            exact hfb.2 k hk hsuf hck
          refine ih i (lps[j - 1]) _ hinv' ?_
          omega
    · rw [lpsLoop, if_neg hi]
      have hie : i = p.length := by omega
      subst hie
      exact ⟨lps, rfl, hlen, fun q hq => hspec q hq⟩

/-- The initial state of the `computeLPS` loop satisfies its invariant. -/
theorem lpsInv_init (p : List Char) (hp : p ≠ []) :
    LpsInv p 1 0 (List.replicate p.length 0) := by
  have hm : 1 ≤ p.length := List.length_pos.mpr hp
  refine ⟨by omega, by omega, by simp, by simp, ?_, ?_⟩
  · intro k c hk _ _ _
    omega
  · intro q hq
    have hq0 : q = 0 := by omega
    subst hq0
    refine ⟨?_, by simp, ?_⟩
    · rw [length_take_eq (by omega)]
      simp [List.getD_eq_getElem?_getD, List.getElem?_replicate_of_lt hm]
    · intro k hk _
      rw [length_take_eq (by omega)] at hk
      omega

/-- The fuel supplied by `computeLPS` dominates the loop measure. -/
theorem lpsFuel_ok (p : List Char) :
    (p.length - 1) * (p.length + 1) + 0 < lpsFuel p := by
  have h1 : (p.length - 1) * (p.length + 1) ≤ p.length * (p.length + 1) :=
    Nat.mul_le_mul_right _ (by omega)
  have h2 : p.length * (p.length + 1) = p.length * p.length + p.length := by ring
  simp only [lpsFuel]
  omega

/-- `computeLPS` on a non-empty pattern returns the array of greatest
proper border lengths of every pattern prefix. -/
theorem computeLPS_sound (p : List Char) (hp : p ≠ []) :
    ∃ r, computeLPS p = some r ∧ r.length = p.length ∧
      ∀ q, q < p.length → IsGreatestBorder (p.take (q + 1)) (r.getD q 0) :=
  lpsLoop_sound p (lpsFuel p) 1 0 _ (lpsInv_init p hp) (lpsFuel_ok p)

/-! ## Soundness of `kmpLoop` -/

/-- The loop invariant of `KMPSearch`: before each test of `i < n`, `j` is
a matched prefix length of the pattern against the processed text prefix,
`j` dominates every matched prefix length extendable by the character
`t[i]`, and all recorded entries are the greatest pattern-prefix lengths
that are suffixes of the corresponding text prefix. -/
def KmpInv (t p : List Char) (i j : ℕ) (rec : List ℕ) : Prop :=
  i ≤ t.length ∧ j < p.length ∧ rec.length = t.length ∧
  p.take j <:+ t.take i ∧
  (∀ k c, k < p.length → p.take k <:+ t.take i → p[k]? = some c → t[i]? = some c → k ≤ j) ∧
  ∀ q, q < i → IsMaxPrefSuffix p (t.take (q + 1)) (rec.getD q 0)

theorem kmpLoop_sound (t p : List Char) (lp : List ℕ)
    (hlplen : lp.length = p.length)
    (hlp : ∀ q, q < p.length → IsGreatestBorder (p.take (q + 1)) (lp.getD q 0)) :
    ∀ (fuel i j : ℕ) (rec : List ℕ),
    KmpInv t p i j rec →
    (t.length - i) * (p.length + 1) + j < fuel →
    ∃ r, kmpLoop t p lp fuel i j rec = some r ∧ r.length = t.length ∧
      ∀ q, q < t.length → IsMaxPrefSuffix p (t.take (q + 1)) (r.getD q 0) := by
  intro fuel
  induction fuel with
  | zero => intro i j rec _ hf; omega
  | succ fuel ih =>
    intro i j rec hinv hf
    obtain ⟨him, hjm, hlen, hS1, hS2, hspec⟩ := hinv
    have hmul : (t.length - i) * (p.length + 1)
        = (t.length - (i + 1)) * (p.length + 1) + (p.length + 1) ∨ i ≥ t.length := by
      rcases Nat.lt_or_ge i t.length with h | h
      · left
        rw [(by omega : t.length - i = (t.length - (i + 1)) + 1), Nat.succ_mul]
      · right; exact h
    by_cases hi : i < t.length
    · have hmul' : (t.length - i) * (p.length + 1)
          = (t.length - (i + 1)) * (p.length + 1) + (p.length + 1) := by
        rcases hmul with h | h
        · exact h
        · omega
      have hpj : p[j]? = some (p[j]) := List.getElem?_eq_getElem hjm
      have hti : t[i]? = some (t[i]) := List.getElem?_eq_getElem hi
      have htsucc : t.take (i + 1) = t.take i ++ [t[i]] := take_succ_getElem hti
      rw [kmpLoop, if_pos hi, hpj, hti]
      simp only [Option.bind_eq_bind, Option.some_bind]
      by_cases hcc : p[j] = t[i]
      · -- step 1 fires: j++, rec[i] = j, i++
        rw [if_pos hcc, setN_eq_some (by omega : i < rec.length)]
        simp only [Option.bind_eq_bind, Option.pure_def, Option.some_bind,
          Nat.add_sub_cancel]
        have hpj' : p[j]? = some (t[i]) := by rw [hpj, hcc]
        have hborder : p.take (j + 1) <:+ t.take (i + 1) := by
          rw [htsucc]
          exact take_suffix_extend hS1 hpj'
        have hmaxk : ∀ k, k ≤ p.length → p.take k <:+ t.take i ++ [t[i]] → k ≤ j + 1 :=
          maxext_of_match le_rfl (fun k hk hs hc => hS2 k (t[i]) hk hs hc hti)
        have hrec_i : IsMaxPrefSuffix p (t.take (i + 1)) (j + 1) := by
          refine ⟨by omega, hborder, ?_⟩
          intro k hk hs
          rw [htsucc] at hs
          exact hmaxk k hk hs
        have hlen1 : (rec.set i (j + 1)).length = t.length := by simp [hlen]
        have hspec1 : ∀ q, q < i + 1 →
            IsMaxPrefSuffix p (t.take (q + 1)) ((rec.set i (j + 1)).getD q 0) := by
          intro q hq
          rcases Nat.lt_or_ge q i with hqi | hqi
          · rw [getD_set_ne (by omega)]
            exact hspec q hqi
          · have hqe : q = i := by omega
            subst hqe
            rw [getD_set_self (by omega : q < rec.length)]
            exact hrec_i
        by_cases hfull : j + 1 = p.length
        · -- complete occurrence: fold back via the prefix array
          rw [if_pos hfull]
          have hjlp : j < lp.length := by omega
          have hv : lp[j]? = some (lp[j]) := List.getElem?_eq_getElem hjlp
          rw [hv]
          simp only [Option.some_bind]
          have hgbp : IsGreatestBorder p (lp.getD j 0) := by
            have := hlp j hjm
            rwa [hfull, List.take_length] at this
          rw [getD_eq_of_lt hjlp] at hgbp
          have hfullsuf : p <:+ t.take (i + 1) := by
            have := hborder
            rwa [hfull, List.take_length] at this
          have hinv' : KmpInv t p (i + 1) (lp[j]) (rec.set i (j + 1)) := by
            refine ⟨by omega, hgbp.1, hlen1, hgbp.2.1.trans hfullsuf, ?_, hspec1⟩
            intro k c hk hs _ _
            have hnest : p.take k <:+ p := by
              apply suffix_nest hs hfullsuf
              rw [length_take_eq (by omega)]
              omega
            exact hgbp.2.2 k hk hnest
          refine ih (i + 1) (lp[j]) _ hinv' ?_
          have hlpj : lp[j] < p.length := hgbp.1
          omega
        · rw [if_neg hfull]
          by_cases hi1 : i + 1 < t.length
          · rw [if_pos hi1]
            have hj1m : j + 1 < p.length := by omega
            have hpj1 : p[j + 1]? = some (p[j + 1]) := List.getElem?_eq_getElem hj1m
            have hti1 : t[i + 1]? = some (t[i + 1]) := List.getElem?_eq_getElem hi1
            rw [hpj1, hti1]
            simp only [Option.some_bind]
            by_cases hcc1 : p[j + 1] = t[i + 1]
            · -- next characters also agree: plain continue
              rw [if_neg (by simp [hcc1])]
              have hinv' : KmpInv t p (i + 1) (j + 1) (rec.set i (j + 1)) := by
                refine ⟨by omega, hj1m, hlen1, hborder, ?_, hspec1⟩
                intro k c hk hs _ _
                exact hrec_i.2.2 k (by omega) hs
              refine ih (i + 1) (j + 1) _ hinv' ?_
              omega
            · -- mismatch immediately after the match: fall back
              rw [if_pos (by simp [hcc1]), if_pos (by omega : j + 1 ≠ 0)]
              have hjlp : j < lp.length := by omega
              have hv : lp[j]? = some (lp[j]) := List.getElem?_eq_getElem hjlp
              rw [hv]
              simp only [Option.some_bind]
              have hgb : IsGreatestBorder (p.take (j + 1)) (lp[j]) := by
                have := hlp j hjm
                rwa [getD_eq_of_lt hjlp] at this
              have hfb := fallback_invariant (by omega : j + 1 ≤ p.length) le_rfl
                hgb hborder
                (fun k hk hs hc => hrec_i.2.2 k (by omega) hs) hpj1 hcc1
              have hlpj : lp[j] < j + 1 := by
                have := hgb.1
                rwa [length_take_eq (by omega)] at this
              have hinv' : KmpInv t p (i + 1) (lp[j]) (rec.set i (j + 1)) := by
                refine ⟨by omega, by omega, hlen1, hfb.1, ?_, hspec1⟩
                intro k c hk hs hck hcik
                have hc : c = t[i + 1] := by
                  rw [hti1] at hcik
                  exact (Option.some.inj hcik).symm
                subst hc
                exact hfb.2 k hk hs hck
              refine ih (i + 1) (lp[j]) _ hinv' ?_
              omega
          · -- text exhausted right after the match
            rw [if_neg hi1]
            have hinv' : KmpInv t p (i + 1) (j + 1) (rec.set i (j + 1)) := by
              refine ⟨by omega, by omega, hlen1, hborder, ?_, hspec1⟩
              intro k c hk hs _ _
              exact hrec_i.2.2 k (by omega) hs
            refine ih (i + 1) (j + 1) _ hinv' ?_
            omega
      · -- step 1 does not fire
        rw [if_neg hcc]
        simp only [Option.bind_eq_bind, Option.pure_def, Option.some_bind]
        rw [if_neg (by omega : ¬j = p.length), if_pos hi, hpj, hti]
        simp only [Option.some_bind]
        rw [if_pos (by simp [hcc])]
        by_cases hj0 : j = 0
        · -- mismatch with j = 0: record 0 and advance
          rw [if_neg (by simp [hj0]), setN_eq_some (by omega : i < rec.length)]
          simp only [Option.some_bind]
          subst hj0
          have hmax0 : ∀ k, k ≤ p.length → p.take k <:+ t.take i ++ [t[i]] → k ≤ 0 :=
            maxext_of_reset le_rfl
              (fun k hk hs hc => hS2 k (t[i]) hk hs hc hti) hpj hcc
          have hrec_i : IsMaxPrefSuffix p (t.take (i + 1)) 0 := by
            refine ⟨by omega, by simp, ?_⟩
            intro k hk hs
            rw [htsucc] at hs
            exact hmax0 k hk hs
          have hinv' : KmpInv t p (i + 1) 0 (rec.set i 0) := by
            refine ⟨by omega, by omega, by simp [hlen], by simp, ?_, ?_⟩
            · intro k c hk hs _ _
              exact hrec_i.2.2 k (by omega) hs
            · intro q hq
              rcases Nat.lt_or_ge q i with hqi | hqi
              · rw [getD_set_ne (by omega)]
                exact hspec q hqi
              · have hqe : q = i := by omega
                subst hqe
                rw [getD_set_self (by omega : q < rec.length)]
                exact hrec_i
          refine ih (i + 1) 0 _ hinv' ?_
          omega
        · -- mismatch with j ≠ 0: fall back
          rw [if_pos hj0]
          have hj1 : j - 1 < lp.length := by omega
          have hv : lp[j - 1]? = some (lp[j - 1]) := List.getElem?_eq_getElem hj1
          rw [hv]
          simp only [Option.some_bind]
          have hgb : IsGreatestBorder (p.take j) (lp[j - 1]) := by
            have := hlp (j - 1) (by omega)
            rwa [(by omega : j - 1 + 1 = j), getD_eq_of_lt hj1] at this
          have hfb := fallback_invariant (by omega : j ≤ p.length) le_rfl
            hgb hS1 (fun k hk hs hc => hS2 k (t[i]) hk hs hc hti) hpj hcc
          have hlpj : lp[j - 1] < j := by
            have := hgb.1
            rwa [length_take_eq (by omega)] at this
          have hinv' : KmpInv t p i (lp[j - 1]) rec := by
            refine ⟨by omega, by omega, hlen, hfb.1, ?_, hspec⟩
            intro k c hk hs hck hcik
            have hc : c = t[i] := by
              rw [hti] at hcik
              exact (Option.some.inj hcik).symm
            subst hc
            exact hfb.2 k hk hs hck
          refine ih i (lp[j - 1]) _ hinv' ?_
          omega
    · rw [kmpLoop, if_neg hi]
      have hie : i = t.length := by omega
      subst hie
      exact ⟨rec, rfl, hlen, fun q hq => hspec q hq⟩

/-- The initial state of the `KMPSearch` loop satisfies its invariant. -/
theorem kmpInv_init (t p : List Char) (hp : p ≠ []) :
    KmpInv t p 0 0 (List.replicate t.length 0) := by
  have hm : 1 ≤ p.length := List.length_pos.mpr hp
  refine ⟨by omega, by omega, by simp, by simp, ?_, ?_⟩
  · intro k c hk hs _ _
    simp only [List.take_zero, List.suffix_nil] at hs
    have : (p.take k).length = 0 := by rw [hs]; rfl
    rw [List.length_take] at this
    omega
  · intro q hq
    omega

/-- The fuel supplied by `KMPSearch` dominates the loop measure. -/
theorem kmpFuel_ok (t p : List Char) :
    (t.length - 0) * (p.length + 1) + 0 < kmpFuel t p := by
  have h2 : (t.length + 1) * (p.length + 1)
      = t.length * (p.length + 1) + (p.length + 1) := by ring
  simp only [kmpFuel, Nat.sub_zero]
  omega

/-- `KMPSearch` on a non-empty pattern returns, at every position `i`, the
greatest length of a pattern prefix that is a suffix of `t.take (i+1)`. -/
theorem KMPSearch_sound (t p : List Char) (hp : p ≠ []) :
    ∃ r, KMPSearch t p = some r ∧ r.length = t.length ∧
      ∀ q, q < t.length → IsMaxPrefSuffix p (t.take (q + 1)) (r.getD q 0) := by
  have hm : 1 ≤ p.length := List.length_pos.mpr hp
  obtain ⟨lp, hlpeq, hlplen, hlpspec⟩ := computeLPS_sound p hp
  rw [KMPSearch, KMPSearchFuel, if_neg (by omega), hlpeq]
  simp only [Option.bind_eq_bind, Option.some_bind]
  exact kmpLoop_sound t p lp hlplen hlpspec (kmpFuel t p) 0 0 _
    (kmpInv_init t p hp) (kmpFuel_ok t p)

/-! ## Toolkit: longest common prefix length -/

/-- Length of the longest common prefix of two lists. -/
def cpl : List Char → List Char → ℕ
  | [], _ => 0
  | _ :: _, [] => 0
  | a :: as, b :: bs => if a = b then cpl as bs + 1 else 0

theorem cpl_le_left : ∀ a b : List Char, cpl a b ≤ a.length
  | [], _ => by simp [cpl]
  | _ :: _, [] => by simp [cpl]
  | a :: as, b :: bs => by
    by_cases h : a = b
    · simp only [cpl, if_pos h, List.length_cons]
      exact Nat.succ_le_succ (cpl_le_left as bs)
    · simp [cpl, h]

theorem cpl_le_right : ∀ a b : List Char, cpl a b ≤ b.length
  | [], _ => by simp [cpl]
  | _ :: _, [] => by simp [cpl]
  | a :: as, b :: bs => by
    by_cases h : a = b
    · simp only [cpl, if_pos h, List.length_cons]
      exact Nat.succ_le_succ (cpl_le_right as bs)
    · simp [cpl, h]

theorem cpl_self : ∀ a : List Char, cpl a a = a.length
  | [] => rfl
  | a :: as => by simp [cpl, cpl_self as]

theorem cpl_getElem?_eq : ∀ (a b : List Char) (d : ℕ), d < cpl a b → a[d]? = b[d]?
  | [], _, _, h => by simp [cpl] at h
  | _ :: _, [], _, h => by simp [cpl] at h
  | a :: as, b :: bs, d, h => by
    by_cases hab : a = b
    · subst hab
      match d with
      | 0 => simp
      | d + 1 =>
        simp only [List.getElem?_cons_succ]
        refine cpl_getElem?_eq as bs d ?_
        simp [cpl] at h
        omega
    · simp [cpl, hab] at h

theorem cpl_le_of_getElem?_ne {a b : List Char} {d : ℕ} (h : a[d]? ≠ b[d]?) :
    cpl a b ≤ d := by
  by_contra hlt
  exact h (cpl_getElem?_eq a b d (by omega))

theorem le_cpl : ∀ (a b : List Char) (w : ℕ),
    (∀ d, d < w → a[d]? = b[d]?) → w ≤ a.length → w ≤ b.length → w ≤ cpl a b
  | _, _, 0, _, _, _ => Nat.zero_le _
  | [], _, w + 1, _, ha, _ => by simp at ha
  | _ :: _, [], w + 1, _, _, hb => by simp at hb
  | a :: as, b :: bs, w + 1, h, ha, hb => by
    have h0 := h 0 (by omega)
    simp only [List.getElem?_cons_zero, Option.some.injEq] at h0
    have hrec := le_cpl as bs w
      (fun d hd => by
        have := h (d + 1) (by omega)
        simpa using this)
      (by simpa using ha) (by simpa using hb)
    simp only [cpl, if_pos h0]
    omega

theorem take_eq_of_le_cpl {a b : List Char} {w : ℕ} (h : w ≤ cpl a b) :
    a.take w = b.take w := by
  apply List.ext_getElem?
  intro d
  by_cases hd : d < w
  · rw [List.getElem?_take_of_lt hd, List.getElem?_take_of_lt hd]
    exact cpl_getElem?_eq a b d (by omega)
  · rw [List.getElem?_eq_none, List.getElem?_eq_none]
    · rw [List.length_take]
      omega
    · rw [List.length_take]
      omega

theorem le_cpl_of_take_eq {a b : List Char} {w : ℕ}
    (h : a.take w = b.take w) (ha : w ≤ a.length) (hb : w ≤ b.length) :
    w ≤ cpl a b := by
  apply le_cpl a b w _ ha hb
  intro d hd
  have : (a.take w)[d]? = (b.take w)[d]? := by rw [h]
  rwa [List.getElem?_take_of_lt hd, List.getElem?_take_of_lt hd] at this

/-- The common prefix length equals the first list's length exactly when
the first list is a prefix of the second. -/
theorem cpl_eq_length_iff_prefix {a b : List Char} :
    cpl a b = a.length ↔ a <+: b := by
  constructor
  · intro h
    have htake := take_eq_of_le_cpl (le_of_eq h.symm)
    rw [List.take_length] at htake
    rw [htake]
    exact List.take_prefix _ _
  · intro h
    have hlen := h.length_le
    have htake : a.take a.length = b.take a.length := by
      rw [List.take_length]
      exact List.prefix_iff_eq_take.mp h
    exact le_antisymm (cpl_le_left a b) (le_cpl_of_take_eq htake (le_refl _) hlen)

theorem cpl_mismatch {a b : List Char} (h1 : cpl a b < a.length)
    (h2 : cpl a b < b.length) : a[cpl a b]? ≠ b[cpl a b]? := by
  intro heq
  have hcontra : cpl a b + 1 ≤ cpl a b := by
    apply le_cpl a b (cpl a b + 1) _ (by omega) (by omega)
    intro d hd
    rcases Nat.lt_or_ge d (cpl a b) with hdc | hdc
    · exact cpl_getElem?_eq a b d hdc
    · have hde : d = cpl a b := by omega
      rw [hde]
      exact heq
  omega

/-- The mirrored-copy case of the Z-box scan: if the window of width `W`
starting at offset `L` of `b` matches a prefix of `a`, and the match
length `zk` recorded at the mirrored offset `k` ends strictly inside the
window, then `zk` is also the exact match length of `a` at offset `L + k`
of `b`. -/
theorem z_copy {a b : List Char} {L k zk W : ℕ}
    (hW : W ≤ cpl a (b.drop L))
    (hzk : zk = cpl a (a.drop k))
    (hlt : k + zk + 1 ≤ W) :
    cpl a (b.drop (L + k)) = zk := by
  have hWa : W ≤ a.length := hW.trans (cpl_le_left _ _)
  have hWb : W ≤ b.length - L := by
    have := hW.trans (cpl_le_right a (b.drop L))
    simpa using this
  -- the mirrored value ends with a genuine character mismatch
  have hzka : zk < a.length := by omega
  have hzkd : zk < (a.drop k).length := by
    rw [List.length_drop]
    omega
  have hmis : a[zk]? ≠ (a.drop k)[zk]? := by
    rw [hzk] at hzka hzkd ⊢
    exact cpl_mismatch hzka hzkd
  have hdropk : (a.drop k)[zk]? = a[k + zk]? := List.getElem?_drop a k zk
  have hmirror : a[k + zk]? = (b.drop L)[k + zk]? :=
    cpl_getElem?_eq _ _ _ (by omega)
  have hbLk : (b.drop L)[k + zk]? = b[L + (k + zk)]? := List.getElem?_drop b L (k + zk)
  have hbLk2 : (b.drop (L + k))[zk]? = b[L + (k + zk)]? := by
    rw [List.getElem?_drop]
    congr 1
    omega
  apply le_antisymm
  · apply cpl_le_of_getElem?_ne
    rw [hbLk2, ← hbLk, ← hmirror, ← hdropk]
    exact hmis
  · apply le_cpl _ _ zk _ (by omega)
    · rw [List.length_drop]
      omega
    · intro d hd
      have h1 : a[d]? = (a.drop k)[d]? := cpl_getElem?_eq _ _ _ (by omega)
      have h2 : (a.drop k)[d]? = a[k + d]? := List.getElem?_drop a k d
      have h3 : a[k + d]? = (b.drop L)[k + d]? := cpl_getElem?_eq _ _ _ (by omega)
      have h4 : (b.drop L)[k + d]? = b[L + (k + d)]? := List.getElem?_drop b L (k + d)
      have h5 : (b.drop (L + k))[d]? = b[L + (k + d)]? := by
        rw [List.getElem?_drop]
        congr 1
        omega
      rw [h1, h2, h3, h4, ← h5]

/-- The extend case of the Z-box scan: when the mirrored value reaches the
window boundary, the characters up to the boundary are already known to
match at offset `L + k`. -/
theorem z_extend_pre {a b : List Char} {L k zk W : ℕ}
    (hW : W ≤ cpl a (b.drop L))
    (hzk : zk = cpl a (a.drop k))
    (hge : W ≤ k + zk + 1) (hkW : k + 1 ≤ W) :
    W - 1 - k ≤ cpl a (b.drop (L + k)) := by
  have hWa : W ≤ a.length := hW.trans (cpl_le_left _ _)
  have hWb : W ≤ b.length - L := by
    have := hW.trans (cpl_le_right a (b.drop L))
    simpa using this
  apply le_cpl _ _ _ _ (by omega)
  · rw [List.length_drop]
    omega
  · intro d hd
    have hdzk : d < zk := by omega
    have h1 : a[d]? = (a.drop k)[d]? := by
      rw [hzk] at hdzk
      exact cpl_getElem?_eq _ _ _ hdzk
    have h2 : (a.drop k)[d]? = a[k + d]? := List.getElem?_drop a k d
    have h3 : a[k + d]? = (b.drop L)[k + d]? := cpl_getElem?_eq _ _ _ (by omega)
    have h4 : (b.drop L)[k + d]? = b[L + (k + d)]? := List.getElem?_drop b L (k + d)
    have h5 : (b.drop (L + k))[d]? = b[L + (k + d)]? := by
      rw [List.getElem?_drop]
      congr 1
      omega
    rw [h1, h2, h3, h4, ← h5]

/-! ## Soundness of `zExtend` and `zLoop` -/

/-- The extension loop of `computeZArray` runs to the exact match length:
starting inside the already-known matched region, it stops at
`L + cpl s (s.drop L)`. -/
theorem zExtend_sound (s : List Char) (L : ℤ) (hL : 0 ≤ L) :
    ∀ (fuel : ℕ) (R : ℤ), L ≤ R → R ≤ (s.length : ℤ) →
    (R - L).toNat ≤ cpl s (s.drop L.toNat) →
    (s.length : ℤ) - R < (fuel : ℤ) →
    zExtend s L fuel R = some (L + (cpl s (s.drop L.toNat) : ℤ)) := by
  intro fuel
  induction fuel with
  | zero =>
    intro R _ hRn _ hf
    exfalso
    omega
  | succ fuel ih =>
    intro R hLR hRn hcov hf
    have hcr : cpl s (s.drop L.toNat) ≤ s.length - L.toNat := by
      have := cpl_le_right s (s.drop L.toNat)
      simpa using this
    by_cases hR : R < (s.length : ℤ)
    · have hdlt : (R - L).toNat < s.length := by omega
      have hRlt : R.toNat < s.length := by omega
      have hga : getZC s (R - L) = some (s[(R - L).toNat]) := by
        rw [getZC, if_neg (by omega)]
        exact List.getElem?_eq_getElem hdlt
      have hgb : getZC s R = some (s[R.toNat]) := by
        rw [getZC, if_neg (by omega)]
        exact List.getElem?_eq_getElem hRlt
      rw [zExtend, if_pos hR, hga, hgb]
      simp only [Option.bind_eq_bind, Option.some_bind]
      by_cases hab : s[(R - L).toNat] = s[R.toNat]
      · rw [if_pos hab]
        have hcov1 : (R + 1 - L).toNat ≤ cpl s (s.drop L.toNat) := by
          have hnext : (R - L).toNat + 1 ≤ cpl s (s.drop L.toNat) := by
            apply le_cpl _ _ _ _ (by omega)
            · rw [List.length_drop]
              omega
            · intro d hd
              rcases Nat.lt_or_ge d (R - L).toNat with hdc | hdc
              · exact cpl_getElem?_eq _ _ _ (by omega)
              · have hde : d = (R - L).toNat := by omega
                subst hde
                rw [List.getElem?_drop]
                have hidx : L.toNat + (R - L).toNat = R.toNat := by omega
                rw [hidx, List.getElem?_eq_getElem hdlt,
                  List.getElem?_eq_getElem hRlt, hab]
          omega
        rw [ih (R + 1) (by omega) (by omega) hcov1 (by omega)]
      · rw [if_neg hab]
        have hup : cpl s (s.drop L.toNat) ≤ (R - L).toNat := by
          apply cpl_le_of_getElem?_ne
          rw [List.getElem?_drop]
          have hidx : L.toNat + (R - L).toNat = R.toNat := by omega
          rw [hidx, List.getElem?_eq_getElem hdlt, List.getElem?_eq_getElem hRlt]
          simp only [ne_eq, Option.some.injEq]
          exact hab
        simp only [Option.pure_def, Option.some.injEq]
        omega
    · rw [zExtend, if_neg hR]
      simp only [Option.pure_def, Option.some.injEq]
      omega

/-- The loop invariant of `computeZArray`: the Z-box `[L, R]` is a
matched window (every offset below its width matches the corresponding
prefix character), it never reaches past the end, and all recorded
entries are exact match lengths. -/
def ZInv (s : List Char) (i : ℕ) (L R : ℤ) (Z : List ℕ) : Prop :=
  1 ≤ i ∧ i ≤ s.length ∧ Z.length = s.length ∧
  0 ≤ L ∧ L < (i : ℤ) ∧ R ≤ (s.length : ℤ) - 1 ∧ L ≤ R + 1 ∧
  (1 ≤ L ∨ R < (i : ℤ)) ∧
  (R - L + 1).toNat ≤ cpl s (s.drop L.toNat) ∧
  ∀ q, q < i → Z.getD q 0 = cpl s (s.drop q)

theorem zLoop_sound (s : List Char) (ef : ℕ) (hef : s.length < ef) :
    ∀ (fuel i : ℕ) (L R : ℤ) (Z : List ℕ),
    ZInv s i L R Z →
    s.length - i < fuel →
    ∃ r, zLoop s ef fuel i L R Z = some r ∧ r.length = s.length ∧
      ∀ q, q < s.length → r.getD q 0 = cpl s (s.drop q) := by
  intro fuel
  induction fuel with
  | zero =>
    intro i L R Z hinv hf
    obtain ⟨_, him, _⟩ := hinv
    omega
  | succ fuel ih =>
    intro i L R Z hinv hf
    obtain ⟨hi1, him, hlen, hL0, hLi, hRn, hLR, hLor, hwin, hspec⟩ := hinv
    by_cases hi : i < s.length
    · have hcr : ∀ M : ℕ, cpl s (s.drop M) ≤ s.length - M := by
        intro M
        have := cpl_le_right s (s.drop M)
        simpa using this
      by_cases hout : (i : ℤ) > R
      · -- outside the window: naive extension from L = R = i
        have hext := zExtend_sound s i (by omega) ef i (le_refl _) (by omega)
          (by simp) (by omega)
        rw [zLoop, if_pos hi, if_pos hout, hext]
        simp only [Option.bind_eq_bind, Option.some_bind, Int.toNat_natCast]
        have hc := hcr i
        have hv : ((i : ℤ) + (cpl s (s.drop i) : ℤ) - i).toNat = cpl s (s.drop i) := by
          omega
        rw [hv, setN_eq_some (by omega : i < Z.length)]
        simp only [Option.some_bind]
        have hinv' : ZInv s (i + 1) i ((i : ℤ) + (cpl s (s.drop i) : ℤ) - 1)
            (Z.set i (cpl s (s.drop i))) := by
          refine ⟨by omega, by omega, by simp [hlen], by omega, by omega,
            by omega, by omega, by omega, ?_, ?_⟩
          · have : ((i : ℤ) + (cpl s (s.drop i) : ℤ) - 1 - i + 1).toNat
                = cpl s (s.drop i) := by omega
            rw [this, Int.toNat_natCast]
          · intro q hq
            rcases Nat.lt_or_ge q i with hqi | hqi
            · rw [getD_set_ne (by omega)]
              exact hspec q hqi
            · have hqe : q = i := by omega
              subst hqe
              rw [getD_set_self (by omega : q < Z.length)]
        refine ih (i + 1) _ _ _ hinv' (by omega)
      · -- inside the window: mirrored lookup
        have hkN0 : (0 : ℤ) ≤ (i : ℤ) - L := by omega
        have hL1 : 1 ≤ L := by omega
        have hkNlt : ((i : ℤ) - L).toNat < i := by omega
        have hkZ : ((i : ℤ) - L).toNat < Z.length := by omega
        have hzkread : getZN Z ((i : ℤ) - L) = some (Z[((i : ℤ) - L).toNat]) := by
          rw [getZN, if_neg (by omega)]
          exact List.getElem?_eq_getElem hkZ
        have hzkval : Z[((i : ℤ) - L).toNat] = cpl s (s.drop ((i : ℤ) - L).toNat) := by
          rw [← getD_eq_of_lt hkZ]
          exact hspec _ hkNlt
        rw [zLoop, if_pos hi, if_neg hout, hzkread]
        simp only [Option.bind_eq_bind, Option.some_bind]
        have hWcpl := hwin
        by_cases hcopy : (Z[((i : ℤ) - L).toNat] : ℤ) < R - i + 1
        · rw [if_pos hcopy, setN_eq_some (by omega : i < Z.length)]
          simp only [Option.some_bind]
          have hval : cpl s (s.drop i) = Z[((i : ℤ) - L).toNat] := by
            have hcc := z_copy (a := s) (b := s) (L := L.toNat)
              (k := ((i : ℤ) - L).toNat) (W := (R - L + 1).toNat)
              hWcpl hzkval ?_
            · have hidx : L.toNat + ((i : ℤ) - L).toNat = i := by omega
              rwa [hidx] at hcc
            · omega
          have hinv' : ZInv s (i + 1) L R (Z.set i (Z[((i : ℤ) - L).toNat])) := by
            refine ⟨by omega, by omega, by simp [hlen], by omega, by omega,
              by omega, by omega, by omega, hWcpl, ?_⟩
            intro q hq
            rcases Nat.lt_or_ge q i with hqi | hqi
            · rw [getD_set_ne (by omega)]
              exact hspec q hqi
            · have hqe : q = i := by omega
              subst hqe
              rw [getD_set_self (by omega : q < Z.length), hval]
          refine ih (i + 1) _ _ _ hinv' (by omega)
        · -- the mirrored value reaches the window boundary: extend from R
          have hpre : ((R : ℤ) - i).toNat ≤ cpl s (s.drop i) := by
            have hpp := z_extend_pre (a := s) (b := s) (L := L.toNat)
              (k := ((i : ℤ) - L).toNat) (W := (R - L + 1).toNat)
              hWcpl hzkval ?_ ?_
            · have hidx : L.toNat + ((i : ℤ) - L).toNat = i := by omega
              rw [hidx] at hpp
              omega
            · omega
            · omega
          have hext := zExtend_sound s i (by omega) ef R (by omega) (by omega)
            (by rwa [Int.toNat_natCast]) (by omega)
          rw [if_neg hcopy, hext]
          simp only [Option.bind_eq_bind, Option.some_bind, Int.toNat_natCast]
          have hc := hcr i
          have hv : ((i : ℤ) + (cpl s (s.drop i) : ℤ) - i).toNat = cpl s (s.drop i) := by
            omega
          rw [hv, setN_eq_some (by omega : i < Z.length)]
          simp only [Option.some_bind]
          have hinv' : ZInv s (i + 1) i ((i : ℤ) + (cpl s (s.drop i) : ℤ) - 1)
              (Z.set i (cpl s (s.drop i))) := by
            refine ⟨by omega, by omega, by simp [hlen], by omega, by omega,
              by omega, by omega, by omega, ?_, ?_⟩
            · have : ((i : ℤ) + (cpl s (s.drop i) : ℤ) - 1 - i + 1).toNat
                  = cpl s (s.drop i) := by omega
              rw [this, Int.toNat_natCast]
            · intro q hq
              rcases Nat.lt_or_ge q i with hqi | hqi
              · rw [getD_set_ne (by omega)]
                exact hspec q hqi
              · have hqe : q = i := by omega
                subst hqe
                rw [getD_set_self (by omega : q < Z.length)]
          refine ih (i + 1) _ _ _ hinv' (by omega)
    · rw [zLoop, if_neg hi]
      have hie : i = s.length := by omega
      subst hie
      exact ⟨Z, rfl, hlen, fun q hq => hspec q hq⟩

/-- The initial state of the `computeZArray` loop satisfies its
invariant. -/
theorem zInv_init (s : List Char) (hs : s ≠ []) :
    ZInv s 1 0 0 ((List.replicate s.length 0).set 0 s.length) := by
  have hn : 1 ≤ s.length := List.length_pos.mpr hs
  refine ⟨le_refl 1, hn, by simp, by omega, by omega, by omega, by omega,
    by omega, ?_, ?_⟩
  · show (1 : ℕ) ≤ cpl s (s.drop 0)
    rw [List.drop_zero, cpl_self]
    omega
  · intro q hq
    have hq0 : q = 0 := by omega
    subst hq0
    rw [getD_set_self (by simpa using hn), List.drop_zero, cpl_self]

/-- `computeZArray` returns, at every index `q`, the longest common
prefix length of `s` and `s.drop q`. -/
theorem computeZArray_sound (s : List Char) (hs : s ≠ []) :
    ∃ r, computeZArray s = some r ∧ r.length = s.length ∧
      ∀ q, q < s.length → r.getD q 0 = cpl s (s.drop q) := by
  have hn : 1 ≤ s.length := List.length_pos.mpr hs
  rw [computeZArray, computeZArrayFuel, if_neg (by omega),
    setN_eq_some (by simpa using hn)]
  simp only [Option.bind_eq_bind, Option.some_bind]
  exact zLoop_sound s (s.length + 1) (by omega) (s.length + 1) 1 0 0 _
    (zInv_init s hs) (by omega)

/-! ## Soundness of `zExtendT` and `zLoopT` -/

/-- The extension loop of `zAlgorithmSearch` runs to the exact match
length of the pattern against the text at offset `L`. -/
theorem zExtendT_sound (t p : List Char) (L : ℤ) (hL : 0 ≤ L) :
    ∀ (fuel : ℕ) (R : ℤ), L ≤ R → R ≤ (t.length : ℤ) →
    (R - L).toNat ≤ cpl p (t.drop L.toNat) →
    (t.length : ℤ) - R < (fuel : ℤ) →
    zExtendT t p L fuel R = some (L + (cpl p (t.drop L.toNat) : ℤ)) := by
  intro fuel
  induction fuel with
  | zero =>
    intro R _ hRn _ hf
    exfalso
    omega
  | succ fuel ih =>
    intro R hLR hRn hcov hf
    have hcl : cpl p (t.drop L.toNat) ≤ p.length := cpl_le_left _ _
    have hcr : cpl p (t.drop L.toNat) ≤ t.length - L.toNat := by
      have := cpl_le_right p (t.drop L.toNat)
      simpa using this
    by_cases hR : R < (t.length : ℤ) ∧ R - L < (p.length : ℤ)
    · have hdlt : (R - L).toNat < p.length := by omega
      have hRlt : R.toNat < t.length := by omega
      have hga : getZC t R = some (t[R.toNat]) := by
        rw [getZC, if_neg (by omega)]
        exact List.getElem?_eq_getElem hRlt
      have hgb : getZC p (R - L) = some (p[(R - L).toNat]) := by
        rw [getZC, if_neg (by omega)]
        exact List.getElem?_eq_getElem hdlt
      rw [zExtendT, if_pos hR, hga, hgb]
      simp only [Option.bind_eq_bind, Option.some_bind]
      by_cases hab : t[R.toNat] = p[(R - L).toNat]
      · rw [if_pos hab]
        have hcov1 : (R + 1 - L).toNat ≤ cpl p (t.drop L.toNat) := by
          have hnext : (R - L).toNat + 1 ≤ cpl p (t.drop L.toNat) := by
            apply le_cpl _ _ _ _ (by omega)
            · rw [List.length_drop]
              omega
            · intro d hd
              rcases Nat.lt_or_ge d (R - L).toNat with hdc | hdc
              · exact cpl_getElem?_eq _ _ _ (by omega)
              · have hde : d = (R - L).toNat := by omega
                subst hde
                rw [List.getElem?_drop]
                have hidx : L.toNat + (R - L).toNat = R.toNat := by omega
                rw [hidx, List.getElem?_eq_getElem hdlt,
                  List.getElem?_eq_getElem hRlt, hab]
          omega
        rw [ih (R + 1) (by omega) (by omega) hcov1 (by omega)]
      · rw [if_neg hab]
        have hup : cpl p (t.drop L.toNat) ≤ (R - L).toNat := by
          apply cpl_le_of_getElem?_ne
          rw [List.getElem?_drop]
          have hidx : L.toNat + (R - L).toNat = R.toNat := by omega
          rw [hidx, List.getElem?_eq_getElem hdlt, List.getElem?_eq_getElem hRlt]
          simp only [ne_eq, Option.some.injEq]
          intro heq
          exact hab heq.symm
        simp only [Option.pure_def, Option.some.injEq]
        omega
    · rw [zExtendT, if_neg hR]
      simp only [Option.pure_def, Option.some.injEq]
      -- the loop stopped at the text end or at a full pattern width
      rcases not_and_or.mp hR with hR1 | hR2
      · have hRe : R = (t.length : ℤ) := by omega
        omega
      · have hRe : R - L = (p.length : ℤ) := by omega
        omega

/-- The loop invariant of `zAlgorithmSearch`: the Z-box `[L, R]` over the
text matches a prefix of the pattern, and all recorded entries are exact
pattern-prefix match lengths. -/
def ZTInv (t p : List Char) (i : ℕ) (L R : ℤ) (Z : List ℕ) : Prop :=
  i ≤ t.length ∧ Z.length = t.length ∧
  0 ≤ L ∧ L ≤ (i : ℤ) ∧ R ≤ (t.length : ℤ) - 1 ∧ L ≤ R + 1 ∧
  (L < (i : ℤ) ∨ R < (i : ℤ)) ∧
  (R - L + 1).toNat ≤ cpl p (t.drop L.toNat) ∧
  ∀ q, q < i → Z.getD q 0 = cpl p (t.drop q)

theorem zLoopT_sound (t p : List Char) (zp : List ℕ) (ef : ℕ)
    (hef : t.length < ef) (hzplen : zp.length = p.length)
    (hzp : ∀ q, q < p.length → zp.getD q 0 = cpl p (p.drop q)) :
    ∀ (fuel i : ℕ) (L R : ℤ) (Z : List ℕ),
    ZTInv t p i L R Z →
    t.length - i < fuel →
    ∃ r, zLoopT t p zp ef fuel i L R Z = some r ∧ r.length = t.length ∧
      ∀ q, q < t.length → r.getD q 0 = cpl p (t.drop q) := by
  intro fuel
  induction fuel with
  | zero =>
    intro i L R Z hinv hf
    obtain ⟨him, _⟩ := hinv
    omega
  | succ fuel ih =>
    intro i L R Z hinv hf
    obtain ⟨him, hlen, hL0, hLi, hRn, hLR, hLor, hwin, hspec⟩ := hinv
    by_cases hi : i < t.length
    · have hcr : ∀ M : ℕ, cpl p (t.drop M) ≤ t.length - M := by
        intro M
        have := cpl_le_right p (t.drop M)
        simpa using this
      have hcl : ∀ M : ℕ, cpl p (t.drop M) ≤ p.length := by
        intro M
        exact cpl_le_left _ _
      rw [zLoopT, if_pos hi, setN_eq_some (by omega : i < Z.length)]
      simp only [Option.bind_eq_bind, Option.some_bind]
      have hlen0 : (Z.set i 0).length = t.length := by simp [hlen]
      by_cases hout : (i : ℤ) > R
      · -- outside the window: naive extension from L = R = i
        have hext := zExtendT_sound t p i (by omega) ef i (le_refl _) (by omega)
          (by simp) (by omega)
        rw [if_pos hout, hext]
        simp only [Option.bind_eq_bind, Option.some_bind, Int.toNat_natCast]
        have hc := hcr i
        have hv : ((i : ℤ) + (cpl p (t.drop i) : ℤ) - i).toNat = cpl p (t.drop i) := by
          omega
        rw [hv, setN_eq_some (by omega : i < (Z.set i 0).length)]
        simp only [Option.some_bind]
        have hinv' : ZTInv t p (i + 1) i ((i : ℤ) + (cpl p (t.drop i) : ℤ) - 1)
            ((Z.set i 0).set i (cpl p (t.drop i))) := by
          refine ⟨by omega, by simp [hlen], by omega, by omega,
            by omega, by omega, by omega, ?_, ?_⟩
          · have hve : ((i : ℤ) + (cpl p (t.drop i) : ℤ) - 1 - i + 1).toNat
                = cpl p (t.drop i) := by omega
            rw [hve, Int.toNat_natCast]
          · intro q hq
            rcases Nat.lt_or_ge q i with hqi | hqi
            · rw [getD_set_ne (by omega), getD_set_ne (by omega)]
              exact hspec q hqi
            · have hqe : q = i := by omega
              subst hqe
              rw [getD_set_self (by omega : q < (Z.set q 0).length)]
        refine ih (i + 1) _ _ _ hinv' (by omega)
      · -- inside the window: mirrored lookup into the pattern's Z-array
        have hwnp : R - L + 1 ≤ (p.length : ℤ) := by
          have := (hcl L.toNat)
          omega
        have hkNlt : ((i : ℤ) - L).toNat < p.length := by omega
        have hkZ : ((i : ℤ) - L).toNat < zp.length := by omega
        have hzkread : getZN zp ((i : ℤ) - L) = some (zp[((i : ℤ) - L).toNat]) := by
          rw [getZN, if_neg (by omega)]
          exact List.getElem?_eq_getElem hkZ
        have hzkval : zp[((i : ℤ) - L).toNat] = cpl p (p.drop ((i : ℤ) - L).toNat) := by
          rw [← getD_eq_of_lt hkZ]
          exact hzp _ hkNlt
        rw [if_neg hout, hzkread]
        simp only [Option.bind_eq_bind, Option.some_bind]
        have hLlt : L < (i : ℤ) := by omega
        by_cases hcopy : (zp[((i : ℤ) - L).toNat] : ℤ) < R - i + 1
        · rw [if_pos hcopy, setN_eq_some (by omega : i < (Z.set i 0).length)]
          simp only [Option.some_bind]
          have hval : cpl p (t.drop i) = zp[((i : ℤ) - L).toNat] := by
            have hcc := z_copy (a := p) (b := t) (L := L.toNat)
              (k := ((i : ℤ) - L).toNat) (W := (R - L + 1).toNat)
              hwin hzkval ?_
            · have hidx : L.toNat + ((i : ℤ) - L).toNat = i := by omega
              rwa [hidx] at hcc
            · omega
          have hinv' : ZTInv t p (i + 1) L R
              ((Z.set i 0).set i (zp[((i : ℤ) - L).toNat])) := by
            refine ⟨by omega, by simp [hlen], by omega, by omega,
              by omega, by omega, by omega, hwin, ?_⟩
            intro q hq
            rcases Nat.lt_or_ge q i with hqi | hqi
            · rw [getD_set_ne (by omega), getD_set_ne (by omega)]
              exact hspec q hqi
            · have hqe : q = i := by omega
              subst hqe
              rw [getD_set_self (by omega : q < (Z.set q 0).length), hval]
          refine ih (i + 1) _ _ _ hinv' (by omega)
        · -- the mirrored value reaches the window boundary: extend from R
          have hpre : ((R : ℤ) - i).toNat ≤ cpl p (t.drop i) := by
            have hpp := z_extend_pre (a := p) (b := t) (L := L.toNat)
              (k := ((i : ℤ) - L).toNat) (W := (R - L + 1).toNat)
              hwin hzkval ?_ ?_
            · have hidx : L.toNat + ((i : ℤ) - L).toNat = i := by omega
              rw [hidx] at hpp
              omega
            · omega
            · omega
          have hext := zExtendT_sound t p i (by omega) ef R (by omega) (by omega)
            (by rwa [Int.toNat_natCast]) (by omega)
          rw [if_neg hcopy, hext]
          simp only [Option.bind_eq_bind, Option.some_bind, Int.toNat_natCast]
          have hc := hcr i
          have hv : ((i : ℤ) + (cpl p (t.drop i) : ℤ) - i).toNat = cpl p (t.drop i) := by
            omega
          rw [hv, setN_eq_some (by omega : i < (Z.set i 0).length)]
          simp only [Option.some_bind]
          have hinv' : ZTInv t p (i + 1) i ((i : ℤ) + (cpl p (t.drop i) : ℤ) - 1)
              ((Z.set i 0).set i (cpl p (t.drop i))) := by
            refine ⟨by omega, by simp [hlen], by omega, by omega,
              by omega, by omega, by omega, ?_, ?_⟩
            · have hve : ((i : ℤ) + (cpl p (t.drop i) : ℤ) - 1 - i + 1).toNat
                  = cpl p (t.drop i) := by omega
              rw [hve, Int.toNat_natCast]
            · intro q hq
              rcases Nat.lt_or_ge q i with hqi | hqi
              · rw [getD_set_ne (by omega), getD_set_ne (by omega)]
                exact hspec q hqi
              · have hqe : q = i := by omega
                subst hqe
                rw [getD_set_self (by omega : q < (Z.set q 0).length)]
          refine ih (i + 1) _ _ _ hinv' (by omega)
    · rw [zLoopT, if_neg hi]
      have hie : i = t.length := by omega
      subst hie
      exact ⟨Z, rfl, hlen, fun q hq => hspec q hq⟩

/-- The initial state of the `zAlgorithmSearch` loop satisfies its
invariant. -/
theorem ztInv_init (t p : List Char) :
    ZTInv t p 0 0 (-1) (List.replicate t.length 0) := by
  refine ⟨by omega, by simp, by omega, by omega, by omega, by omega,
    by omega, ?_, ?_⟩
  · show ((-1 : ℤ) - 0 + 1).toNat ≤ cpl p (t.drop (0 : ℤ).toNat)
    show (0 : ℕ) ≤ cpl p (t.drop 0)
    omega
  · intro q hq
    omega

/-- `zAlgorithmSearch` on a non-empty pattern returns, at every text
offset `q`, the longest common prefix length of the pattern and
`t.drop q`. -/
theorem zAlgorithmSearch_sound (t p : List Char) (hp : p ≠ []) :
    ∃ r, zAlgorithmSearch t p = some r ∧ r.length = t.length ∧
      ∀ q, q < t.length → r.getD q 0 = cpl p (t.drop q) := by
  have hm : 1 ≤ p.length := List.length_pos.mpr hp
  obtain ⟨zp, hzpeq, hzplen, hzpspec⟩ := computeZArray_sound p hp
  rw [zAlgorithmSearch, zAlgorithmSearchFuel, if_neg (by omega), hzpeq]
  simp only [Option.bind_eq_bind, Option.some_bind]
  exact zLoopT_sound t p zp (t.length + 1) (by omega) hzplen hzpspec
    (t.length + 1) 0 0 (-1) _ (ztInv_init t p) (by omega)

/-! ## Bridging lemmas between `cpl` and prefix/suffix statements -/

theorem le_cpl_of_take_eq_lt {a b : List Char} {w : ℕ}
    (hlt : b.length < a.length) (h : a.take w = b.take w) : w ≤ cpl a b := by
  have hlen : (a.take w).length = (b.take w).length := by rw [h]
  rw [List.length_take, List.length_take] at hlen
  have hwb : w ≤ b.length := by omega
  exact le_cpl_of_take_eq h (by omega) hwb

theorem take_cpl_prefix (a b : List Char) : a.take (cpl a b) <+: b := by
  rw [take_eq_of_le_cpl (le_refl (cpl a b))]
  exact List.take_prefix _ _

theorem le_cpl_of_take_prefix {a b : List Char} {k : ℕ}
    (hk : k ≤ a.length) (h : a.take k <+: b) : k ≤ cpl a b := by
  have htk := List.prefix_iff_eq_take.mp h
  rw [length_take_eq hk] at htk
  have hkb : k ≤ b.length := by
    have := h.length_le
    rwa [length_take_eq hk] at this
  exact le_cpl_of_take_eq htk hk hkb

/-- A pattern is a suffix of `t.take (i+1)` exactly when it is a prefix of
`t.drop (i + 1 - m)`: the end-offset/start-offset translation of an
occurrence. -/
theorem suffix_take_iff_prefix_drop {t p : List Char} {i : ℕ} (hi : i < t.length) :
    p <:+ t.take (i + 1) ↔
      p.length ≤ i + 1 ∧ p <+: t.drop (i + 1 - p.length) := by
  have hu : (t.take (i + 1)).length = i + 1 := length_take_eq (by omega)
  constructor
  · intro h
    have hlen : p.length ≤ i + 1 := by
      have := h.length_le
      omega
    refine ⟨hlen, ?_⟩
    have hdrop := List.suffix_iff_eq_drop.mp h
    rw [hu] at hdrop
    have hcomm : (t.take (i + 1)).drop (i + 1 - p.length)
        = (t.drop (i + 1 - p.length)).take p.length := by
      rw [List.drop_take]
      congr 1
      omega
    rw [List.prefix_iff_eq_take]
    rw [hcomm] at hdrop
    exact hdrop
  · intro ⟨hlen, h⟩
    have hcomm : (t.take (i + 1)).drop (i + 1 - p.length)
        = (t.drop (i + 1 - p.length)).take p.length := by
      rw [List.drop_take]
      congr 1
      omega
    rw [List.suffix_iff_eq_drop, hu, hcomm]
    exact List.prefix_iff_eq_take.mp h

theorem isMaxPrefSuffix_eq_length_iff {p u : List Char} {r : ℕ}
    (h : IsMaxPrefSuffix p u r) : r = p.length ↔ p <:+ u := by
  obtain ⟨hr, hsuf, hmax⟩ := h
  constructor
  · intro he
    rw [he, List.take_length] at hsuf
    exact hsuf
  · intro hp
    have := hmax p.length (le_refl _) (by rwa [List.take_length])
    omega

/-! ## Claim theorems -/

/-- C3: for every pattern, `prefixFunction` returns an array of length
`m` whose entry at `i` is the length of the longest proper prefix of
`pattern[0..i]` that is also a suffix of `pattern[0..i]`; the entry is at
most `i`, and the entry at index 0 is 0. -/
theorem c3_prefixFunction_correct (p : List Char) (i : ℕ) (hi : i < p.length) :
    ∃ arr, prefixFunction p = some arr ∧ arr.length = p.length ∧
      arr.getD 0 0 = 0 ∧ arr.getD i 0 ≤ i ∧
      IsGreatestBorder (p.take (i + 1)) (arr.getD i 0) := by
  have hp : p ≠ [] := by
    intro h
    subst h
    simp at hi
  obtain ⟨arr, he, hl, hs⟩ := computeLPS_sound p hp
  refine ⟨arr, he, hl, ?_, ?_, hs i hi⟩
  · have h0 := (hs 0 (by omega)).1
    rw [length_take_eq (by omega)] at h0
    omega
  · have hgb := (hs i hi).1
    rw [length_take_eq (by omega)] at hgb
    omega

/-- C1: for every text and non-empty pattern, `kmpMatch` returns an array
of length `n` whose entry at `i` is the length of the longest prefix of
the pattern that is also a suffix of `text[0..i]`; a completed occurrence
is recorded as the pre-fold matched length `m`, not a distinct
sentinel. -/
theorem c1_kmpMatch_correct (t p : List Char) (hp : p ≠ []) (i : ℕ)
    (hi : i < t.length) :
    ∃ arr, kmpMatch t p = some arr ∧ arr.length = t.length ∧
      IsMaxPrefSuffix p (t.take (i + 1)) (arr.getD i 0) := by
  obtain ⟨arr, he, hl, hs⟩ := KMPSearch_sound t p hp
  exact ⟨arr, he, hl, hs i hi⟩

/-- C4: `zFunction` returns an array of length `n` with entry `n` at
index 0, and for `i > 0` the entry at `i` is at most `n - i` and is the
greatest `L` with `s[0..L) = s[i..i+L)`. -/
theorem c4_zFunction_correct (s : List Char) (i : ℕ) (hi : i < s.length) :
    ∃ arr, zFunction s = some arr ∧ arr.length = s.length ∧
      arr.getD 0 0 = s.length ∧
      (0 < i →
        arr.getD i 0 ≤ s.length - i ∧
        s.take (arr.getD i 0) = (s.drop i).take (arr.getD i 0) ∧
        ∀ w, s.take w = (s.drop i).take w → w ≤ arr.getD i 0) := by
  have hs0 : s ≠ [] := by
    intro h
    subst h
    simp at hi
  obtain ⟨arr, he, hl, hs⟩ := computeZArray_sound s hs0
  have hn : 1 ≤ s.length := List.length_pos.mpr hs0
  refine ⟨arr, he, hl, ?_, ?_⟩
  · rw [hs 0 (by omega), List.drop_zero, cpl_self]
  · intro hipos
    have hei := hs i hi
    have hdlen : (s.drop i).length = s.length - i := List.length_drop i s
    refine ⟨?_, ?_, ?_⟩
    · rw [hei]
      have := cpl_le_right s (s.drop i)
      omega
    · rw [hei]
      exact take_eq_of_le_cpl (le_refl _)
    · intro w hw
      rw [hei]
      exact le_cpl_of_take_eq_lt (by omega) hw

/-- C2: for every text and non-empty pattern, `zMatch` returns an array
of length `n` whose entry at `i` is the length of the longest prefix of
the pattern matching the text starting at `i`, and an entry equals `m`
exactly when a full occurrence of the pattern starts at that offset. -/
theorem c2_zMatch_correct (t p : List Char) (hp : p ≠ []) (i : ℕ)
    (hi : i < t.length) :
    ∃ arr, zMatch t p = some arr ∧ arr.length = t.length ∧
      arr.getD i 0 ≤ p.length ∧
      p.take (arr.getD i 0) <+: t.drop i ∧
      (∀ k, k ≤ p.length → p.take k <+: t.drop i → k ≤ arr.getD i 0) ∧
      (arr.getD i 0 = p.length ↔ p <+: t.drop i) := by
  obtain ⟨arr, he, hl, hs⟩ := zAlgorithmSearch_sound t p hp
  have hei := hs i hi
  refine ⟨arr, he, hl, ?_, ?_, ?_, ?_⟩
  · rw [hei]
    exact cpl_le_left _ _
  · rw [hei]
    exact take_cpl_prefix _ _
  · intro k hk hpref
    rw [hei]
    exact le_cpl_of_take_prefix hk hpref
  · rw [hei]
    exact cpl_eq_length_iff_prefix

/-- C5: the positions where `kmpMatch` records the full pattern length are
exactly the end-offsets of pattern occurrences, and they coincide with
the offsets where `zMatch` records the pattern length under the
translation from end-offset `i` to start-offset `i + 1 - m`. -/
theorem c5_consistency (t p : List Char) (hp : p ≠ []) (i : ℕ)
    (hi : i < t.length) :
    ∃ ka za, kmpMatch t p = some ka ∧ zMatch t p = some za ∧
      (ka.getD i 0 = p.length ↔ p <:+ t.take (i + 1)) ∧
      (za.getD i 0 = p.length ↔ p <+: t.drop i) ∧
      (ka.getD i 0 = p.length ↔
        p.length ≤ i + 1 ∧ za.getD (i + 1 - p.length) 0 = p.length) := by
  have hm : 1 ≤ p.length := List.length_pos.mpr hp
  obtain ⟨ka, hke, hkl, hks⟩ := KMPSearch_sound t p hp
  obtain ⟨za, hze, hzl, hzs⟩ := zAlgorithmSearch_sound t p hp
  have hka := isMaxPrefSuffix_eq_length_iff (hks i hi)
  have hza : za.getD i 0 = p.length ↔ p <+: t.drop i := by
    rw [hzs i hi]
    exact cpl_eq_length_iff_prefix
  refine ⟨ka, za, hke, hze, hka, hza, ?_⟩
  rw [hka, suffix_take_iff_prefix_drop hi]
  constructor
  · intro ⟨h1, h2⟩
    refine ⟨h1, ?_⟩
    rw [hzs (i + 1 - p.length) (by omega)]
    exact cpl_eq_length_iff_prefix.mpr h2
  · intro ⟨h1, h2⟩
    refine ⟨h1, ?_⟩
    rw [hzs (i + 1 - p.length) (by omega)] at h2
    exact cpl_eq_length_iff_prefix.mp h2

/-- C10: `kmpMatch` entries are bounded by `min m (i + 1)` and grow by at
most one between consecutive text positions. -/
theorem c10_kmp_invariants (t p : List Char) (hp : p ≠ []) (i : ℕ)
    (hi : i < t.length) :
    ∃ arr, kmpMatch t p = some arr ∧
      arr.getD i 0 ≤ min p.length (i + 1) ∧
      (i + 1 < t.length → arr.getD (i + 1) 0 ≤ arr.getD i 0 + 1) := by
  obtain ⟨arr, he, hl, hs⟩ := KMPSearch_sound t p hp
  obtain ⟨hr1, hsuf1, hmax1⟩ := hs i hi
  refine ⟨arr, he, ?_, ?_⟩
  · have hlb : (p.take (arr.getD i 0)).length ≤ (t.take (i + 1)).length :=
      hsuf1.length_le
    rw [length_take_eq hr1, length_take_eq (by omega)] at hlb
    omega
  · intro hi1
    obtain ⟨hr2, hsuf2, hmax2⟩ := hs (i + 1) hi1
    rcases Nat.eq_zero_or_pos (arr.getD (i + 1) 0) with h0 | hpos
    · omega
    · have hti1 : t[i + 1]? = some (t[i + 1]) := List.getElem?_eq_getElem hi1
      rw [take_succ_getElem hti1] at hsuf2
      obtain ⟨hpeel, _⟩ := take_suffix_peel hpos hr2 hsuf2
      have := hmax1 (arr.getD (i + 1) 0 - 1) (by omega) hpeel
      omega

/-! ## Fuel stabilization: every loop terminates within the supplied fuel -/

theorem lpsLoop_exit (p : List Char) (fuel i j : ℕ) (lps : List ℕ)
    (hi : ¬ i < p.length) (hf : 0 < fuel) : lpsLoop p fuel i j lps = some lps := by
  obtain ⟨f, rfl⟩ : ∃ f, fuel = f + 1 := ⟨fuel - 1, by omega⟩
  rw [lpsLoop, if_neg hi]
  rfl

theorem list_eq_of_getD {r1 r2 : List ℕ} (hl : r1.length = r2.length)
    (h : ∀ q, q < r1.length → r1.getD q 0 = r2.getD q 0) : r1 = r2 := by
  apply List.ext_getElem?
  intro n
  by_cases hn : n < r1.length
  · have h1 : r1[n]? = some r1[n] := List.getElem?_eq_getElem hn
    have h2 : r2[n]? = some r2[n] := List.getElem?_eq_getElem (by omega)
    have h3 := h n hn
    rw [getD_eq_of_lt hn, getD_eq_of_lt (by omega : n < r2.length)] at h3
    rw [h1, h2, h3]
  · rw [List.getElem?_eq_none (by omega), List.getElem?_eq_none (by omega)]

theorem isGreatestBorder_unique {l : List Char} {r1 r2 : ℕ}
    (h1 : IsGreatestBorder l r1) (h2 : IsGreatestBorder l r2) : r1 = r2 :=
  le_antisymm (h2.2.2 r1 h1.1 h1.2.1) (h1.2.2 r2 h2.1 h2.2.1)

theorem isMaxPrefSuffix_unique {p u : List Char} {r1 r2 : ℕ}
    (h1 : IsMaxPrefSuffix p u r1) (h2 : IsMaxPrefSuffix p u r2) : r1 = r2 :=
  le_antisymm (h2.2.2 r1 h1.1 h1.2.1) (h1.2.2 r2 h2.1 h2.2.1)

/-- Any fuel at least `lpsFuel p` yields the same (successful) result. -/
theorem computeLPS_stab (p : List Char) (e : ℕ) :
    lpsLoop p (lpsFuel p + e) 1 0 (List.replicate p.length 0) = computeLPS p := by
  by_cases hp : p = []
  · subst hp
    rw [computeLPS]
    rw [lpsLoop_exit _ _ _ _ _ (by simp) (by simp [lpsFuel]),
      lpsLoop_exit _ _ _ _ _ (by simp) (by simp [lpsFuel])]
  · obtain ⟨r1, hr1, hl1, hs1⟩ := lpsLoop_sound p (lpsFuel p + e) 1 0 _
      (lpsInv_init p hp) (by have := lpsFuel_ok p; omega)
    obtain ⟨r2, hr2, hl2, hs2⟩ := computeLPS_sound p hp
    rw [hr1, hr2]
    congr 1
    apply list_eq_of_getD (by omega)
    intro q hq
    exact isGreatestBorder_unique (hs1 q (by omega)) (hs2 q (by omega))

theorem computeLPS_isSome (p : List Char) : (computeLPS p).isSome := by
  by_cases hp : p = []
  · subst hp
    rw [computeLPS, lpsLoop_exit _ _ _ _ _ (by simp) (by simp [lpsFuel])]
    rfl
  · obtain ⟨r, hr, -, -⟩ := computeLPS_sound p hp
    rw [hr]
    rfl

/-- Any fuel at least `kmpFuel t p` yields the same (successful) result. -/
theorem KMPSearch_stab (t p : List Char) (e : ℕ) :
    KMPSearchFuel (kmpFuel t p + e) t p = KMPSearch t p := by
  by_cases hp : p = []
  · subst hp
    rfl
  · have hm : 1 ≤ p.length := List.length_pos.mpr hp
    obtain ⟨lp, hlpe, hlpl, hlps⟩ := computeLPS_sound p hp
    rw [KMPSearch]
    simp only [KMPSearchFuel]
    rw [if_neg (by omega), if_neg (by omega), hlpe]
    simp only [Option.bind_eq_bind, Option.some_bind]
    obtain ⟨r1, hr1, hl1, hs1⟩ := kmpLoop_sound t p lp hlpl hlps
      (kmpFuel t p + e) 0 0 _ (kmpInv_init t p hp)
      (by have := kmpFuel_ok t p; omega)
    obtain ⟨r2, hr2, hl2, hs2⟩ := kmpLoop_sound t p lp hlpl hlps
      (kmpFuel t p) 0 0 _ (kmpInv_init t p hp) (kmpFuel_ok t p)
    rw [hr1, hr2]
    congr 1
    apply list_eq_of_getD (by omega)
    intro q hq
    exact isMaxPrefSuffix_unique (hs1 q (by omega)) (hs2 q (by omega))

theorem KMPSearch_isSome (t p : List Char) : (KMPSearch t p).isSome := by
  by_cases hp : p = []
  · subst hp
    rfl
  · obtain ⟨r, hr, -, -⟩ := KMPSearch_sound t p hp
    rw [hr]
    rfl

/-- Any outer and extension fuels at least `n + 1` yield the same
(successful) result for `computeZArray`. -/
theorem computeZArray_stab (s : List Char) (e1 e2 : ℕ) :
    computeZArrayFuel (s.length + 1 + e1) (s.length + 1 + e2) s
      = computeZArray s := by
  by_cases hs0 : s = []
  · subst hs0
    rfl
  · have hn : 1 ≤ s.length := List.length_pos.mpr hs0
    rw [computeZArray]
    simp only [computeZArrayFuel]
    rw [if_neg (by omega), if_neg (by omega), setN_eq_some (by simpa using hn)]
    simp only [Option.bind_eq_bind, Option.some_bind]
    obtain ⟨r1, hr1, hl1, hs1⟩ := zLoop_sound s (s.length + 1 + e2) (by omega)
      (s.length + 1 + e1) 1 0 0 _ (zInv_init s hs0) (by omega)
    obtain ⟨r2, hr2, hl2, hs2⟩ := zLoop_sound s (s.length + 1) (by omega)
      (s.length + 1) 1 0 0 _ (zInv_init s hs0) (by omega)
    rw [hr1, hr2]
    congr 1
    apply list_eq_of_getD (by omega)
    intro q hq
    rw [hs1 q (by omega), hs2 q (by omega)]

theorem computeZArray_isSome (s : List Char) : (computeZArray s).isSome := by
  by_cases hs0 : s = []
  · subst hs0
    rfl
  · obtain ⟨r, hr, -, -⟩ := computeZArray_sound s hs0
    rw [hr]
    rfl

/-- Any outer and extension fuels at least `n + 1` yield the same
(successful) result for `zAlgorithmSearch`. -/
theorem zAlgorithmSearch_stab (t p : List Char) (e1 e2 : ℕ) :
    zAlgorithmSearchFuel (t.length + 1 + e1) (t.length + 1 + e2) t p
      = zAlgorithmSearch t p := by
  by_cases hp : p = []
  · subst hp
    rfl
  · have hm : 1 ≤ p.length := List.length_pos.mpr hp
    obtain ⟨zp, hzpe, hzpl, hzps⟩ := computeZArray_sound p hp
    rw [zAlgorithmSearch]
    simp only [zAlgorithmSearchFuel]
    rw [if_neg (by omega), if_neg (by omega), hzpe]
    simp only [Option.bind_eq_bind, Option.some_bind]
    obtain ⟨r1, hr1, hl1, hs1⟩ := zLoopT_sound t p zp (t.length + 1 + e2)
      (by omega) hzpl hzps (t.length + 1 + e1) 0 0 (-1) _ (ztInv_init t p)
      (by omega)
    obtain ⟨r2, hr2, hl2, hs2⟩ := zLoopT_sound t p zp (t.length + 1)
      (by omega) hzpl hzps (t.length + 1) 0 0 (-1) _ (ztInv_init t p)
      (by omega)
    rw [hr1, hr2]
    congr 1
    apply list_eq_of_getD (by omega)
    intro q hq
    rw [hs1 q (by omega), hs2 q (by omega)]

theorem zAlgorithmSearch_isSome (t p : List Char) :
    (zAlgorithmSearch t p).isSome := by
  by_cases hp : p = []
  · subst hp
    rfl
  · obtain ⟨r, hr, -, -⟩ := zAlgorithmSearch_sound t p hp
    rw [hr]
    rfl

/-- C6: none of the four routines ever performs an out-of-bounds index
access: every index access in the embedding is an `Option`-returning
bounds-checked read or write whose failure would propagate to a `none`
result, and each routine always returns `some` on every input, including
both-empty, pattern-longer-than-text and all-equal-symbol inputs. -/
theorem c6_no_oob (t p s : List Char) :
    (prefixFunction p).isSome ∧ (kmpMatch t p).isSome ∧
    (zFunction s).isSome ∧ (zMatch t p).isSome :=
  ⟨computeLPS_isSome p, KMPSearch_isSome t p, computeZArray_isSome s,
    zAlgorithmSearch_isSome t p⟩

/-- C7: boundary behaviour on empty inputs: `prefixFunction` and
`zFunction` of the empty string are the empty array, `kmpMatch` with an
empty pattern is the empty array, and `zMatch` with an empty pattern is
the all-zero array of the text's length. -/
theorem c7_boundary (t : List Char) :
    prefixFunction [] = some [] ∧ zFunction [] = some [] ∧
    kmpMatch t [] = some [] ∧ zMatch t [] = some (List.replicate t.length 0) :=
  ⟨by decide, by decide, rfl, rfl⟩

/-- C8: all four routines terminate on every input: the fallback loops and
window-extension loops finish within the statically supplied fuel, so
giving each loop any more fuel than its bound does not change the result,
and the result is always a `some` value. -/
theorem c8_terminates (t p s : List Char) (e1 e2 e3 e4 e5 e6 : ℕ) :
    (lpsLoop p (lpsFuel p + e1) 1 0 (List.replicate p.length 0) = computeLPS p ∧
      (computeLPS p).isSome) ∧
    (KMPSearchFuel (kmpFuel t p + e2) t p = KMPSearch t p ∧
      (KMPSearch t p).isSome) ∧
    (computeZArrayFuel (s.length + 1 + e3) (s.length + 1 + e4) s
        = computeZArray s ∧
      (computeZArray s).isSome) ∧
    (zAlgorithmSearchFuel (t.length + 1 + e5) (t.length + 1 + e6) t p
        = zAlgorithmSearch t p ∧
      (zAlgorithmSearch t p).isSome) :=
  ⟨⟨computeLPS_stab p e1, computeLPS_isSome p⟩,
    ⟨KMPSearch_stab t p e2, KMPSearch_isSome t p⟩,
    ⟨computeZArray_stab s e3 e4, computeZArray_isSome s⟩,
    ⟨zAlgorithmSearch_stab t p e5 e6, zAlgorithmSearch_isSome t p⟩⟩

/-- C9: on the concrete text `"ABABDABACDABABCABAB"` and pattern
`"ABABCABAB"`, `zMatch` returns exactly the expected array, and the only
entry equal to the pattern length 9 is at text offset 10. -/
theorem c9_zMatch_concrete :
    zMatch "ABABDABACDABABCABAB".toList "ABABCABAB".toList =
      some [4, 0, 2, 0, 0, 3, 0, 1, 0, 0, 9, 0, 2, 0, 0, 4, 0, 2, 0] ∧
    ∀ i, i < 19 →
      (([4, 0, 2, 0, 0, 3, 0, 1, 0, 0, 9, 0, 2, 0, 0, 4, 0, 2, 0] :
          List ℕ).getD i 0 = 9 ↔ i = 10) := by
  constructor
  · decide
  · decide

/-! ## Witnesses: the claim theorems applied at concrete inputs -/

theorem c3_prefixFunction_correct_witness :
    (4 < ("AABAACAABAA".toList).length) ∧
    (∃ arr, prefixFunction "AABAACAABAA".toList = some arr ∧
      arr.length = ("AABAACAABAA".toList).length ∧
      arr.getD 0 0 = 0 ∧ arr.getD 4 0 ≤ 4 ∧
      IsGreatestBorder (("AABAACAABAA".toList).take (4 + 1)) (arr.getD 4 0)) :=
  ⟨by decide, c3_prefixFunction_correct _ 4 (by decide)⟩

theorem c1_kmpMatch_correct_witness :
    ("abab".toList ≠ [] ∧ 3 < ("ababab".toList).length) ∧
    (∃ arr, kmpMatch "ababab".toList "abab".toList = some arr ∧
      arr.length = ("ababab".toList).length ∧
      IsMaxPrefSuffix "abab".toList (("ababab".toList).take (3 + 1))
        (arr.getD 3 0)) :=
  ⟨⟨by decide, by decide⟩, c1_kmpMatch_correct _ _ (by decide) 3 (by decide)⟩

theorem c4_zFunction_correct_witness :
    (1 < ("aaabaab".toList).length) ∧
    (∃ arr, zFunction "aaabaab".toList = some arr ∧
      arr.length = ("aaabaab".toList).length ∧
      arr.getD 0 0 = ("aaabaab".toList).length ∧
      (0 < 1 →
        arr.getD 1 0 ≤ ("aaabaab".toList).length - 1 ∧
        ("aaabaab".toList).take (arr.getD 1 0)
          = (("aaabaab".toList).drop 1).take (arr.getD 1 0) ∧
        ∀ w, ("aaabaab".toList).take w = (("aaabaab".toList).drop 1).take w →
          w ≤ arr.getD 1 0)) :=
  ⟨by decide, c4_zFunction_correct _ 1 (by decide)⟩

theorem c2_zMatch_correct_witness :
    ("aa".toList ≠ [] ∧ 1 < ("aaaaa".toList).length) ∧
    (∃ arr, zMatch "aaaaa".toList "aa".toList = some arr ∧
      arr.length = ("aaaaa".toList).length ∧
      arr.getD 1 0 ≤ ("aa".toList).length ∧
      ("aa".toList).take (arr.getD 1 0) <+: ("aaaaa".toList).drop 1 ∧
      (∀ k, k ≤ ("aa".toList).length →
        ("aa".toList).take k <+: ("aaaaa".toList).drop 1 → k ≤ arr.getD 1 0) ∧
      (arr.getD 1 0 = ("aa".toList).length ↔
        "aa".toList <+: ("aaaaa".toList).drop 1)) :=
  ⟨⟨by decide, by decide⟩, c2_zMatch_correct _ _ (by decide) 1 (by decide)⟩

theorem c5_consistency_witness :
    ("abab".toList ≠ [] ∧ 3 < ("ababab".toList).length) ∧
    (∃ ka za, kmpMatch "ababab".toList "abab".toList = some ka ∧
      zMatch "ababab".toList "abab".toList = some za ∧
      (ka.getD 3 0 = ("abab".toList).length ↔
        "abab".toList <:+ ("ababab".toList).take (3 + 1)) ∧
      (za.getD 3 0 = ("abab".toList).length ↔
        "abab".toList <+: ("ababab".toList).drop 3) ∧
      (ka.getD 3 0 = ("abab".toList).length ↔
        ("abab".toList).length ≤ 3 + 1 ∧
        za.getD (3 + 1 - ("abab".toList).length) 0 = ("abab".toList).length)) :=
  ⟨⟨by decide, by decide⟩, c5_consistency _ _ (by decide) 3 (by decide)⟩

theorem c10_kmp_invariants_witness :
    ("abab".toList ≠ [] ∧ 2 < ("ababab".toList).length) ∧
    (∃ arr, kmpMatch "ababab".toList "abab".toList = some arr ∧
      arr.getD 2 0 ≤ min ("abab".toList).length (2 + 1) ∧
      (2 + 1 < ("ababab".toList).length →
        arr.getD (2 + 1) 0 ≤ arr.getD 2 0 + 1)) :=
  ⟨⟨by decide, by decide⟩, c10_kmp_invariants _ _ (by decide) 2 (by decide)⟩
